import Mathlib

/-!
# Verification of the exprtk.js core scheduler, instance pool and broadcast iterator

This development is a shallow embedding, in Lean 4, of the concurrency core of
the exprtk.js addon: the per-call work splitting of `Expression<T>::map`
(src/expression.cc), the lockless completion barrier and error aggregation of
`Worker<T>::OnExecute` (src/async.h), the instance pool of `Expression<T>`
(src/expression.h), the strided-array validation and index arithmetic of
src/ndarray.cc, and the argument-scanning prologues of `eval` and `cwise`
(src/expression.cc).

C++ sizes (`size_t`) are modelled as `Nat` and signed 64/32-bit quantities
(`int64_t` offsets, `int32_t` strides) as `Int`; all the properties proved
below are stated on domains where the C++ arithmetic cannot overflow
(lengths, counts and offsets bounded by buffer element counts), so the
identification is exact there.  Exceptions thrown as `const char *` and
caught per unit are modelled as `Except String`.
-/

namespace ExprtkJs

/-! ## Evaluation result delivery: `Expression<T>::eval` job closure

`eval`'s `job.main` (src/expression.cc:218-223) runs the importers, computes
`r = i.expression.value()`, and throws the C string
"explicit return values are not supported" whenever the evaluation produced
explicit return results (`i.expression.results().count() != 0`); otherwise it
returns `r`.  The engine evaluation is opaque here: the model receives the
scalar value `value` the engine computed and the count `resultsCount` of
explicit return results it produced.  -/
def evalMain (value : α) (resultsCount : Nat) : Except String α :=
  let r := value
  if resultsCount ≠ 0 then Except.error "explicit return values are not supported"
  else Except.ok r

/-! ## Per-unit failure recording: `Worker<T>::OnExecute`

A `Worker` holds one `raw` result slot and one `err` slot (initially
`nullptr`, modelled as `none`).  Each completing joblet (src/async.h:126-129)
runs `raw = doit(...)` inside a `try`/`catch (const char *err)`; on success it
overwrites `raw`, on failure it overwrites `this->err` unconditionally.  The
joblets of one job complete in some order; `workerRecord` folds that
completion order over the worker state.  -/
def workerStep (st : Option String × Option α) (outcome : Except String α) :
    Option String × Option α :=
  match outcome with
  | Except.ok v => (st.1, some v)
  | Except.error e => (some e, st.2)

/-- The `(err, raw)` state of a `Worker` after all joblets completed, in the
given completion order, starting from `err = nullptr`, `raw` unset. -/
def workerRecord (outcomes : List (Except String α)) : Option String × Option α :=
  outcomes.foldl workerStep (none, none)

/-- What `AsyncWorker<T>::CallJS` (src/async.h:235-239) and the sync paths of
`Job<T>::run` (src/async.h:318-324) deliver: the error path with message `e`
when `Error() != nullptr`, the value path otherwise. -/
def deliveredResult (outcomes : List (Except String α)) : Option String :=
  (workerRecord outcomes).1

/-- The message of the first unit that failed, in completion order (what the
spec asserts is delivered). -/
def firstFailure (outcomes : List (Except String α)) : Option String :=
  outcomes.findSome? (fun o => match o with
    | Except.error e => some e
    | Except.ok _ => none)

/-- The message of the last unit that failed, in completion order (what the
code actually delivers). -/
def lastFailure : List (Except String α) → Option String
  | [] => none
  | o :: rest =>
    match lastFailure rest with
    | some e => some e
    | none =>
      match o with
      | Except.error e => some e
      | Except.ok _ => none

/-! ## Completion barrier: `Worker<T>::OnExecute` tail (src/async.h:145-152)

Each completing joblet executes `ready = jobletsReady.fetch_add(1)` on the
job's atomic counter (initially 0) and invokes `OnFinish()` iff
`ready + 1 == joblets.size()`.  An execution of a job with `n` joblets is an
interleaving: a list of the joblet ids in the order their `fetch_add`
operations take effect.  Because the counter is atomic, the `p`-th increment
(0-based position `p` in that order) returns exactly `p`; `barrierRun` pairs
every joblet with the counter value its `fetch_add` returned.  -/
def barrierGo (n : Nat) (acc : List (Nat × Nat)) : List Nat → List (Nat × Nat)
  | [] => acc
  | j :: rest => barrierGo (n + 1) (acc ++ [(j, n)]) rest

/-- All `(joblet id, fetch_add return value)` events of one job execution. -/
def barrierRun (order : List Nat) : List (Nat × Nat) :=
  barrierGo 0 [] order

/-- The joblets that invoke `OnFinish`: those whose observed counter value
`ready` satisfies `ready + 1 = size` (src/async.h:152). -/
def finisherEvents (size : Nat) (order : List Nat) : List (Nat × Nat) :=
  (barrierRun order).filter (fun e => e.2 + 1 = size)

/-! ## Concurrency ceiling setter: `Expression<T>::SetMaxParallel`

`SetMaxParallel` (src/expression.cc:1357-1375) rejects `newMax` whenever
`newMax > maxParallel`, comparing against the *current* ceiling, and
otherwise assigns `maxParallel = newMax`.  The physical pool size
(`instances.size()`, fixed at construction to `ExpressionMaxParallel`, the
`EXPRTKJS_THREADS` thread count) is not consulted.  The model takes the
current ceiling and the requested value and returns the new ceiling or the
error. -/
def setMaxParallel (currentMaxParallel n : Nat) : Except String Nat :=
  if n > currentMaxParallel then
    Except.error
      "maximum instances is limited to the number of threads set by the environment variable EXPRTKJS_THREADS"
  else Except.ok n

/-! ## `cwise` argument scan: `Expression<T>::cwise` prologue

The argument loop of `cwise` (src/expression.cc:790-858) classifies each
argument as a scalar, a flat typed array of some element length, or an
N-dimensional strided view (whose element count is the product of its shape,
`StridedLength`, src/ndarray.h:56-60).  It threads a `len` accumulator,
initially 0: the first vector-like argument with `len == 0` sets `len` to its
length, and a later vector-like argument whose length differs raises
"all vectors must have the same number of elements".  After the loop
(src/expression.cc:865-868), `len == 0` raises
"at least one argument must be a non-zero length vector" — before any job is
scheduled (`job.run` is only reached at src/expression.cc:1025).  -/
inductive CwiseArg where
  | scalar : CwiseArg
  | vec : Nat → CwiseArg
  | nd : List Nat → CwiseArg
deriving DecidableEq, Repr

/-- `StridedLength` (src/ndarray.h:56-60): element count of a strided view. -/
def stridedLength (shape : List Nat) : Nat :=
  shape.foldl (fun length s => length * s) 1

/-- Element length an argument contributes to the `len` scan (`thisLen` in the
source); scalars do not take part in the scan. -/
def cwiseArgLen : CwiseArg → Option Nat
  | CwiseArg.scalar => none
  | CwiseArg.vec l => some l
  | CwiseArg.nd shape => some (stridedLength shape)

/-- The `len` accumulator loop over the arguments. -/
def cwiseScan (len : Nat) : List CwiseArg → Except String Nat
  | [] => Except.ok len
  | a :: rest =>
    match cwiseArgLen a with
    | none => cwiseScan len rest
    | some thisLen =>
      if len = 0 then cwiseScan thisLen rest
      else if len ≠ thisLen then
        Except.error "all vectors must have the same number of elements"
      else cwiseScan len rest

/-- The output-length determination of the `cwise` call prologue, including
the final zero-length rejection. -/
def cwiseSetupLen (args : List CwiseArg) : Except String Nat :=
  match cwiseScan 0 args with
  | Except.error e => Except.error e
  | Except.ok len =>
    if len = 0 then
      Except.error "at least one argument must be a non-zero length vector"
    else Except.ok len

/-! ## Map work splitting: `Expression<T>::map` job closure

`map` splits an input array of `lenTotal` elements into `job.joblets` units.
`lenPerJoblet = (lenTotal + joblets - 1) / joblets` (integer division
ceiling, src/expression.cc:368).  The per-unit closure (src/expression.cc:
374-389) for joblet `id` loads each input element of the slice
`[id*lenPerJoblet, min(lenTotal, (id+1)*lenPerJoblet))` into the iterator
variable, evaluates the expression, and stores the value into the same
position of the output; a slice whose lower bound is not below its upper
bound performs no iterations.  The engine evaluation (iterator in, value out)
is the opaque function `ev`; arrays are modelled as `Nat → α` restricted to
positions `< lenTotal`.  -/
def lenPerJoblet (lenTotal joblets : Nat) : Nat :=
  (lenTotal + joblets - 1) / joblets

/-- Whether joblet `id` (with slice size `c`) writes position `k` of an array
of length `lenTotal`: the loop of src/expression.cc:384-387 runs `in_ptr`
from `input + id*c` to `input + min(lenTotal, (id+1)*c)`. -/
def jobletCovers (lenTotal c id k : Nat) : Prop :=
  id * c ≤ k ∧ k < min lenTotal ((id + 1) * c)

instance (lenTotal c id k : Nat) : Decidable (jobletCovers lenTotal c id k) := by
  unfold jobletCovers; infer_instance

/-- The output array after joblet `id` ran its slice. -/
def mapJobletRun (ev : α → α) (input : Nat → α) (lenTotal c id : Nat)
    (output : Nat → α) : Nat → α :=
  fun k => if jobletCovers lenTotal c id k then ev (input k) else output k

/-- The output array after all joblets `0..joblets-1` of a map job ran (the
slices are pairwise disjoint, so any execution order writes the same array;
the model runs them in id order). -/
def mapRun {α : Type _} (ev : α → α) (input : Nat → α) (lenTotal joblets : Nat)
    (output : Nat → α) : Nat → α :=
  (List.range joblets).foldl
    (fun o id => mapJobletRun ev input lenTotal (lenPerJoblet lenTotal joblets) id o)
    output

/-! ## Instance pool: `Expression<T>` (src/expression.h:291-317)

The pool state of one `Expression`: `instancesIdle` is the idle list (front =
`std::list::front`), each entry carrying its `isInit` flag; `currentActive`
counts acquired instances; `maxActive` is the high-water mark readable via
`maxActive` (src/expression.cc:1387-1391).  At construction
(src/expression.cc:33-128) instance 0 is compiled (`isInit = true`) and
pushed first, the remaining `total - 1` instances are uncompiled, and
`maxActive = 1`, `currentActive = 0`.

`getIdleInstance` returns `nullptr` when the idle list is empty or
`currentActive >= maxParallel`; otherwise it pops the front instance,
increments `currentActive`, and lazily compiles the instance —
`compileInstance` (src/expression.cc:154-171) sets `isInit` and increments
`maxActive`.  `waitIdleInstance` blocks until the same guard holds and then
performs the identical transition, so both acquisitions are one model step.
`releaseIdleInstance` pushes the instance back at the front and decrements
`currentActive`.  An instance is only ever released by the worker or guard
that acquired it, and every instance handed out is compiled, so the released
instance always has `isInit = true`.  -/
structure PoolState where
  instancesIdle : List Bool
  currentActive : Nat
  maxActive : Nat
deriving DecidableEq, Repr

/-- Pool state right after the `Expression` constructor ran. -/
def initPool (total : Nat) : PoolState :=
  { instancesIdle := true :: List.replicate (total - 1) false
    currentActive := 0
    maxActive := 1 }

/-- `Expression<T>::getIdleInstance` (src/expression.h:291-299), with the
`compileInstance` effect on the popped instance inlined.  Returns the
acquired instance's (post-compilation) `isInit` flag and the new state, or
`none` for the `nullptr` path. -/
def getIdleInstance (maxParallel : Nat) (st : PoolState) :
    Option (Bool × PoolState) :=
  match st.instancesIdle with
  | [] => none
  | r :: rest =>
    if st.currentActive ≥ maxParallel then none
    else
      some (true,
        { instancesIdle := rest
          currentActive := st.currentActive + 1
          maxActive := if r then st.maxActive else st.maxActive + 1 })

/-- `Expression<T>::releaseIdleInstance` (src/expression.h:301-307). -/
def releaseIdleInstance (inst : Bool) (st : PoolState) : PoolState :=
  { instancesIdle := inst :: st.instancesIdle
    currentActive := st.currentActive - 1
    maxActive := st.maxActive }

/-- Reachable pool states, together with the high-water mark `hw` that
`currentActive` has reached along the trace (0 initially; refreshed after
every successful acquisition — releases only lower `currentActive`, so `hw`
is the maximum over the whole trace).  An acquisition step is a successful
`getIdleInstance` or the identical transition taken by `waitIdleInstance`
when its wait completes; a release step requires an outstanding instance
(the caller holds one, and all instances handed out are compiled).  A failed
`getIdleInstance` does not change the state.  -/
inductive PoolReach (total maxParallel : Nat) : PoolState → Nat → Prop where
  | init : PoolReach total maxParallel (initPool total) 0
  | acquire {st hw inst st'} : PoolReach total maxParallel st hw →
      getIdleInstance maxParallel st = some (inst, st') →
      PoolReach total maxParallel st' (max hw st'.currentActive)
  | release {st hw} : PoolReach total maxParallel st hw →
      0 < st.currentActive →
      PoolReach total maxParallel (releaseIdleInstance true st) hw

/-! ## Strided-array validation: `ImportStridedArray` (src/ndarray.cc:73-103)

After extracting `(offset, shape, stride)` from the host object, the
function throws unless `shape.length == stride.length`, throws if any
`shape[i] < 1`, computes
`lastElement = offset + Σ_i (shape[i]-1) * stride[i]` (the linear offset of
the element with every index maximal), and throws unless
`0 ≤ lastElement < data.ElementLength()`.  `importAccepts` is true exactly
when none of these throws fire.  `shape[i]` is a `size_t`, so `shape[i] < 1`
means `shape[i] = 0`; `offset` enters as a `size_t` cast (hence the callers
always pass a non-negative value), strides are `int32_t`.  -/
def lastElementOffset (offset : Int) (shape : List Nat) (stride : List Int) : Int :=
  offset + (shape.zip stride).foldl (fun acc p => acc + ((p.1 : Int) - 1) * p.2) 0

/-- The call-setup acceptance decision of `ImportStridedArray` for a view
over a buffer of `elements` elements. -/
def importAccepts (elements : Nat) (offset : Int) (shape : List Nat)
    (stride : List Int) : Bool :=
  shape.length == stride.length &&
  shape.all (fun s => 1 ≤ s) &&
  decide (0 ≤ lastElementOffset offset shape stride) &&
  decide (lastElementOffset offset shape stride < (elements : Int))

/-- The linear element offset the traversal reaches at multi-index `index`:
`offset + Σ_d index[d] * stride[d]`. -/
def linearAt (offset : Int) (index : List Nat) (stride : List Int) : Int :=
  offset + (index.zip stride).foldl (fun acc p => acc + (p.1 : Int) * p.2) 0

/-! ## Broadcast index arithmetic: `GetStridedIndex` / `GetLinearOffset`

`GetLinearOffset` (src/ndarray.cc:106-114) computes
`offset = Σ_d index[d] * stride[d]`.

`GetStridedIndex` (src/ndarray.cc:117-140) visits the axes in decreasing-
stride order (`std::sort` of `0..dims-1` with comparator
`stride[a] > stride[b]`, modelled as a stable merge sort by the matching
non-strict relation); for each axis `i` it computes `k = linear / stride[i]`
(C++ signed division truncates toward zero, `Int.tdiv`), subtracts
`k * stride[i]` from `linear`, and stores `k` into `index[i]` — or
`shape[i] - 1 + k` when `stride[i] < 0`.  The `index` array entries are
`size_t` in the source; they are modelled as `Int` so that the
negative-stride branch is representable, and every property proved below
lives on inputs where the entries are non-negative.  -/
def getLinearOffset (index : List Int) (stride : List Int) : Int :=
  (index.zip stride).foldl (fun acc p => acc + p.1 * p.2) 0

/-- The axis visit order: `0..dims-1` sorted by decreasing stride. -/
def sortOrder (stride : List Int) (dims : Nat) : List Nat :=
  (List.range dims).mergeSort (fun a b => stride.getD b 0 ≤ stride.getD a 0)

/-- The per-axis loop of `GetStridedIndex`. -/
def gsiGo (shape : List Nat) (stride : List Int) :
    List Nat → Int → List Int → List Int
  | [], _, index => index
  | i :: rest, linear, index =>
    let s := stride.getD i 0
    let k := linear.tdiv s
    gsiGo shape stride rest (linear - k * s)
      (index.set i (if s < 0 then (shape.getD i 0 : Int) - 1 + k else k))

/-- `GetStridedIndex`: convert linear offset `offset` to a multi-dimensional
index for the given shape and strides. -/
def getStridedIndex (offset : Int) (dims : Nat) (shape : List Nat)
    (stride : List Int) : List Int :=
  gsiGo shape stride (sortOrder stride dims) offset (List.replicate dims 0)

/-- Positive row-major strides derived from a shape:
`stride[d] = Π_{e > d} shape[e]`.  This is the `rowMajorStride` computed by
the `cwise` prologue (src/expression.cc:892-899: `stride = 1`, then from the
last axis upward `rowMajorStride[d] = stride; stride *= shape[d]`). -/
def rowMajorStride : List Nat → List Int
  | [] => []
  | _ :: rest => (stridedLength rest : Int) :: rowMajorStride rest

/-- The canonical row-major decomposition of a linear offset under a shape:
first entry `off / Π rest`, then recursively the decomposition of
`off % Π rest`.  Used as the closed form that `getStridedIndex` is proved to
compute on row-major strides. -/
def natIndex (off : Nat) : List Nat → List Int
  | [] => []
  | _ :: rest => ((off / stridedLength rest : Nat) : Int) ::
      natIndex (off % stridedLength rest) rest

/-! ## Theorems -/

/-- The `err` slot after folding a completion order equals the last failure
message of that order (each `catch` overwrites `err`, src/async.h:129). -/
theorem workerRecord_err_eq_lastFailure (outcomes : List (Except String α)) :
    ∀ st : Option String × Option α,
      (outcomes.foldl workerStep st).1 =
        match lastFailure outcomes with
        | some e => some e
        | none => st.1 := by
  induction outcomes with
  | nil => intro st; rfl
  | cons o rest ih =>
    intro st
    show (rest.foldl workerStep (workerStep st o)).1 = _
    rw [ih (workerStep st o)]
    cases o with
    | ok v => cases h : lastFailure rest <;> simp [lastFailure, h, workerStep]
    | error e => cases h : lastFailure rest <;> simp [lastFailure, h, workerStep]

/-- `lastFailure` is `none` exactly when no unit failed. -/
theorem lastFailure_eq_none_iff (outcomes : List (Except String α)) :
    lastFailure outcomes = none ↔ ∀ o ∈ outcomes, ∀ e, o ≠ Except.error e := by
  induction outcomes with
  | nil => simp [lastFailure]
  | cons o rest ih =>
    cases o with
    | ok v =>
      have hl : lastFailure (Except.ok v :: rest) = lastFailure rest := by
        cases h : lastFailure rest <;> simp [lastFailure, h]
      rw [hl, ih]
      constructor
      · intro hr o ho e
        rcases List.mem_cons.mp ho with h1 | h1
        · subst h1; simp
        · exact hr o h1 e
      · intro hc o ho e
        exact hc o (List.mem_cons_of_mem _ ho) e
    | error e =>
      have hl : lastFailure (Except.error e :: rest) ≠ none := by
        cases h : lastFailure rest <;> simp [lastFailure, h]
      constructor
      · intro hco
        exact absurd hco hl
      · intro hall
        exact absurd rfl (hall (Except.error e) (by simp) e)

/-- C3, counterexample: in the completion order
`[error "A", error "B", ok 0]` the first unit to fail carries message `"A"`,
but the worker delivers `"B"` — the message of the last failing unit — so
the delivered message is not the first unit's failure message. -/
theorem c3_counterexample :
    firstFailure [Except.error "A", Except.error "B", (Except.ok 0 : Except String Nat)] =
        some "A" ∧
      deliveredResult [Except.error "A", Except.error "B",
        (Except.ok 0 : Except String Nat)] = some "B" ∧
      ("B" : String) ≠ "A" := by
  refine ⟨rfl, rfl, ?_⟩
  decide

/-- C3, amended: a job is delivered failed if and only if at least one unit
failed, and the message delivered is that of the *last* unit that failed in
completion order (each failing unit overwrites the worker's single `err`
slot, src/async.h:126-129; delivery tests `Error() != nullptr`,
src/async.h:235-239 and src/async.h:318-324). -/
theorem c3_amended (outcomes : List (Except String α)) :
    deliveredResult outcomes = lastFailure outcomes ∧
      (deliveredResult outcomes = none ↔ ∀ o ∈ outcomes, ∀ e, o ≠ Except.error e) := by
  have h : deliveredResult outcomes = lastFailure outcomes := by
    show (outcomes.foldl workerStep (none, none)).1 = _
    rw [workerRecord_err_eq_lastFailure outcomes (none, none)]
    cases lastFailure outcomes <;> rfl
  exact ⟨h, by rw [h]; exact lastFailure_eq_none_iff outcomes⟩

/-- C9: the `eval` job closure (src/expression.cc:218-223) throws
"explicit return values are not supported" exactly when the evaluation
produced explicit return results, and returns the scalar expression value
exactly when it produced none. -/
theorem c9_eval_explicit_return (α : Type) (v : α) (resultsCount : Nat) :
    (evalMain v resultsCount = Except.error "explicit return values are not supported" ↔
        0 < resultsCount) ∧
      (evalMain v resultsCount = Except.ok v ↔ resultsCount = 0) := by
  cases resultsCount with
  | zero => simp [evalMain]
  | succ n => simp [evalMain]

/-- C10: when every argument is a scalar or a zero-length typed array (so no
argument is a vector of at least one element — strided views always have at
least one element since `ImportStridedArray` enforces positive shapes), the
`cwise` prologue rejects the call with
"at least one argument must be a non-zero length vector", before any job is
scheduled. -/
theorem c10_cwise_zero_length (args : List CwiseArg)
    (h : ∀ a ∈ args, a = CwiseArg.scalar ∨ a = CwiseArg.vec 0) :
    cwiseSetupLen args =
      Except.error "at least one argument must be a non-zero length vector" := by
  have hscan : cwiseScan 0 args = Except.ok 0 := by
    induction args with
    | nil => rfl
    | cons a rest ih =>
      rcases h a (by simp) with ha | ha <;> subst ha <;>
        simpa [cwiseScan, cwiseArgLen] using ih (fun a ha => h a (by simp [ha]))
  unfold cwiseSetupLen
  rw [hscan]
  rfl

/-- Witness for C10 at the concrete argument list `[scalar, vec 0]`. -/
theorem c10_cwise_zero_length_witness :
    cwiseSetupLen [CwiseArg.scalar, CwiseArg.vec 0] =
      Except.error "at least one argument must be a non-zero length vector" :=
  c10_cwise_zero_length [CwiseArg.scalar, CwiseArg.vec 0] (by decide)

/-- C7: `SetMaxParallel` compares the requested value against the *current*
ceiling, not the physical instance count.  On a pool provisioned with 4
instances, lowering the ceiling to 2 succeeds, after which raising it to 3
is rejected even though `3 ≤ 4`: the previously lowered ceiling can never be
raised again, contradicting the code's own error message, which states that
the limit is the `EXPRTKJS_THREADS` thread count (the physical instance
count). -/
theorem c7_cannot_raise_after_lower :
    setMaxParallel 4 2 = Except.ok 2 ∧
      (3 : Nat) ≤ 4 ∧
      (setMaxParallel 2 3).isOk = false := by
  refine ⟨rfl, by decide, rfl⟩

/-- Unfolding of the barrier fold: starting the counter at `c`, the events
are the joblets paired with consecutive counter values `c, c+1, ...`. -/
theorem barrierGo_append (l : List Nat) :
    ∀ (c : Nat) (acc : List (Nat × Nat)),
      barrierGo c acc l = acc ++ l.zip (List.range' c l.length) := by
  induction l with
  | nil => intro c acc; simp [barrierGo]
  | cons j rest ih =>
    intro c acc
    show barrierGo (c + 1) (acc ++ [(j, c)]) rest = _
    rw [ih]
    simp [List.range'_succ]

/-- Filtering barrier events on the observed counter value only looks at the
second components. -/
theorem finisher_filter_length (n : Nat) (l : List (Nat × Nat)) :
    (l.filter (fun e => e.2 + 1 = n)).length =
      ((l.map Prod.snd).filter (fun v => v + 1 = n)).length := by
  induction l with
  | nil => rfl
  | cons e rest ih =>
    by_cases h : e.2 + 1 = n <;> simp [List.filter, h, ih]

/-- Among the observed counter values `0..n-1`, only `n-1` satisfies the
finisher condition. -/
theorem range_filter_last (n : Nat) (h : 1 ≤ n) :
    (List.range n).filter (fun v => v + 1 = n) = [n - 1] := by
  obtain ⟨m, rfl⟩ : ∃ m, n = m + 1 := ⟨n - 1, by omega⟩
  rw [List.range_succ, List.filter_append]
  have h1 : (List.range m).filter (fun v => v + 1 = m + 1) = [] := by
    rw [List.filter_eq_nil_iff]
    intro a ha
    have := List.mem_range.mp ha
    simp
    omega
  rw [h1]
  simp

/-- C2: for every job with `n ≥ 1` joblets and every interleaving of their
`fetch_add(1)` operations (a list of the `n` joblet ids in the order the
increments take effect), exactly one joblet observes a counter value `ready`
with `ready + 1 = n` and hence invokes `OnFinish`, and it is the joblet
whose increment came last — no interleaving produces zero or more than one
finisher invocation. -/
theorem c2_exactly_one_finisher (n : Nat) (order : List Nat)
    (h1 : 1 ≤ n) (h2 : order.length = n) :
    (finisherEvents n order).length = 1 ∧
      ∀ e ∈ finisherEvents n order, e.2 = n - 1 := by
  have hb : barrierRun order = order.zip (List.range' 0 n) := by
    unfold barrierRun
    rw [barrierGo_append]
    simp [h2]
  have hsnd : (order.zip (List.range' 0 n)).map Prod.snd = List.range' 0 n :=
    List.map_snd_zip _ _ (by simp [h2])
  constructor
  · show ((barrierRun order).filter _).length = 1
    rw [hb, finisher_filter_length n, hsnd, ← List.range_eq_range',
      range_filter_last n h1]
    rfl
  · intro e he
    have hp := (List.mem_filter.mp he).2
    have := of_decide_eq_true hp
    omega

/-- Witness for C2: two joblets completing in the order `[1, 0]`. -/
theorem c2_exactly_one_finisher_witness :
    (finisherEvents 2 [1, 0]).length = 1 ∧
      ∀ e ∈ finisherEvents 2 [1, 0], e.2 = 2 - 1 :=
  c2_exactly_one_finisher 2 [1, 0] (by decide) (by decide)

/-- Characterisation of running a list of joblets: position `k` holds
`ev (input k)` iff some joblet in the list covers `k`, else the prior
value.  (The value written is the same whichever joblet writes it, which is
why any execution order produces the same array.) -/
theorem mapRun_char {α : Type _} (ev : α → α) (input : Nat → α) (L c : Nat)
    (ids : List Nat) :
    ∀ (out : Nat → α) (k : Nat),
      (ids.foldl (fun o id => mapJobletRun ev input L c id o) out) k =
        if ∃ id ∈ ids, jobletCovers L c id k then ev (input k) else out k := by
  induction ids with
  | nil => intro out k; simp
  | cons i rest ih =>
    intro out k
    show (rest.foldl _ (mapJobletRun ev input L c i out)) k = _
    rw [ih]
    by_cases h1 : ∃ id ∈ rest, jobletCovers L c id k
    · simp [h1]
    · by_cases h2 : jobletCovers L c i k
      · simp [h1, h2, mapJobletRun]
      · simp [h1, h2, mapJobletRun]

/-- Every position `k < L` is covered by joblet `k / lenPerJoblet L N`. -/
theorem jobletCovers_exists (L N k : Nat) (hN : 1 ≤ N) (hk : k < L) :
    ∃ id ∈ List.range N, jobletCovers L (lenPerJoblet L N) id k := by
  have hc : 1 ≤ lenPerJoblet L N :=
    (Nat.le_div_iff_mul_le (by omega)).mpr (by omega)
  have hLNc : L ≤ N * lenPerJoblet L N := by
    have hd : N * lenPerJoblet L N + (L + N - 1) % N = L + N - 1 :=
      Nat.div_add_mod (L + N - 1) N
    have hm : (L + N - 1) % N < N := Nat.mod_lt _ (by omega)
    generalize hA : N * lenPerJoblet L N = A at hd ⊢
    omega
  refine ⟨k / lenPerJoblet L N, List.mem_range.mpr ?_, Nat.div_mul_le_self k _, ?_⟩
  · exact (Nat.div_lt_iff_lt_mul hc).mpr (by omega)
  · have hd2 : lenPerJoblet L N * (k / lenPerJoblet L N) + k % lenPerJoblet L N = k :=
      Nat.div_add_mod k (lenPerJoblet L N)
    have hm2 : k % lenPerJoblet L N < lenPerJoblet L N := Nat.mod_lt _ (by omega)
    have hr : (k / lenPerJoblet L N + 1) * lenPerJoblet L N =
        lenPerJoblet L N * (k / lenPerJoblet L N) + lenPerJoblet L N := by ring
    refine Nat.lt_min.mpr ⟨hk, ?_⟩
    rw [hr]
    generalize hB : lenPerJoblet L N * (k / lenPerJoblet L N) = B at hd2 ⊢
    omega

/-- C1: splitting a map job over an array of length `L` into `N` joblets
(`1 ≤ N ≤ maxParallel`) writes exactly the same output array as running it
with one joblet — on every position below `L` the two runs agree, positions
at or above `L` are never written by any run, and a joblet whose slice
`[id*lenPerJoblet, min(L, (id+1)*lenPerJoblet))` is empty performs no
writes at all (in particular the whole job is a no-op when `L = 0`). -/
theorem c1_map_split {α : Type} (ev : α → α) (input out : Nat → α)
    (L N maxParallel : Nat) (hN : 1 ≤ N) (_hcap : N ≤ maxParallel) :
    (∀ k, k < L → mapRun ev input L N out k = mapRun ev input L 1 out k) ∧
      (∀ k, L ≤ k → mapRun ev input L N out k = out k) ∧
      (∀ (id : Nat) (out' : Nat → α),
        min L ((id + 1) * lenPerJoblet L N) ≤ id * lenPerJoblet L N →
          mapJobletRun ev input L (lenPerJoblet L N) id out' = out') := by
  refine ⟨?_, ?_, ?_⟩
  · intro k hk
    unfold mapRun
    rw [mapRun_char, mapRun_char]
    have h1 := jobletCovers_exists L N k hN hk
    have h2 := jobletCovers_exists L 1 k (by omega) hk
    rw [if_pos h1, if_pos h2]
  · intro k hk
    unfold mapRun
    rw [mapRun_char]
    have : ¬∃ id ∈ List.range N, jobletCovers L (lenPerJoblet L N) id k := by
      rintro ⟨id, -, -, hlt⟩
      have := Nat.min_le_left L ((id + 1) * lenPerJoblet L N)
      omega
    rw [if_neg this]
  · intro id out' hempty
    funext k
    show (if _ then _ else _) = out' k
    have : ¬jobletCovers L (lenPerJoblet L N) id k := by
      rintro ⟨hlo, hhi⟩
      omega
    rw [if_neg this]

/-- Witness for C1 at `L = 3`, `N = 2`, `maxParallel = 2`. -/
theorem c1_map_split_witness :
    (∀ k, k < 3 → mapRun (fun x => x + 1) (fun k => (k : Int)) 3 2 (fun _ => 0) k =
        mapRun (fun x => x + 1) (fun k => (k : Int)) 3 1 (fun _ => 0) k) ∧
      (∀ k, 3 ≤ k → mapRun (fun x => x + 1) (fun k => (k : Int)) 3 2 (fun _ => 0) k = 0) ∧
      (∀ (id : Nat) (out' : Nat → Int),
        min 3 ((id + 1) * lenPerJoblet 3 2) ≤ id * lenPerJoblet 3 2 →
          mapJobletRun (fun x => x + 1) (fun k => (k : Int)) 3 (lenPerJoblet 3 2) id out' =
            out') :=
  c1_map_split (fun x => x + 1) (fun k => (k : Int)) (fun _ => 0) 3 2 2
    (by decide) (by decide)

/-- Pulling the accumulator out of the additive folds used by the offset
sums. -/
theorem foldl_add_shift {β : Type _} (f : β → Int) (l : List β) :
    ∀ a : Int, l.foldl (fun acc p => acc + f p) a =
      a + l.foldl (fun acc p => acc + f p) 0 := by
  induction l with
  | nil => intro a; simp
  | cons x rest ih =>
    intro a
    show rest.foldl _ (a + f x) = a + rest.foldl _ (0 + f x)
    rw [ih (a + f x), ih (0 + f x)]
    ring

/-- An additive fold of non-negative terms is non-negative. -/
theorem foldl_add_nonneg {β : Type _} (f : β → Int) (l : List β)
    (h : ∀ p ∈ l, 0 ≤ f p) : 0 ≤ l.foldl (fun acc p => acc + f p) 0 := by
  induction l with
  | nil => simp
  | cons x rest ih =>
    show (0 : Int) ≤ rest.foldl _ (0 + f x)
    rw [foldl_add_shift]
    have h1 := h x (by simp)
    have h2 := ih (fun p hp => h p (by simp [hp]))
    linarith

/-- Termwise comparison: with non-negative strides, the stride-weighted sum
of any in-range index is at most the sum at the all-maximal index. -/
theorem linear_le_corner (shape : List Nat) (index : List Nat)
    (hf : List.Forall₂ (fun i s => i < s) index shape) :
    ∀ stride : List Int, (∀ s ∈ stride, 0 ≤ s) →
      (index.zip stride).foldl (fun acc p => acc + (p.1 : Int) * p.2) 0 ≤
        (shape.zip stride).foldl (fun acc p => acc + ((p.1 : Int) - 1) * p.2) 0 := by
  induction hf with
  | nil => intro stride _; simp
  | @cons i s index' shape' hi hf' ih =>
    intro stride hstr
    cases stride with
    | nil => simp
    | cons t str' =>
      show (index'.zip str').foldl _ (0 + (i : Int) * t) ≤
        (shape'.zip str').foldl _ (0 + ((s : Int) - 1) * t)
      rw [foldl_add_shift (fun p => (p.1 : Int) * p.2) (index'.zip str')
          (0 + (i : Int) * t),
        foldl_add_shift (fun p => ((p.1 : Int) - 1) * p.2) (shape'.zip str')
          (0 + ((s : Int) - 1) * t)]
      have ht : (0 : Int) ≤ t := hstr t (by simp)
      have h1 : (i : Int) * t ≤ ((s : Int) - 1) * t := by
        have : (i : Int) ≤ (s : Int) - 1 := by
          have := Int.ofNat_lt.mpr hi
          omega
        exact mul_le_mul_of_nonneg_right this ht
      have h2 := ih str' (fun u hu => hstr u (by simp [hu]))
      linarith

/-- C4, counterexample: the view `offset = 2`, `shape = [2,2]`,
`stride = [-2,1]` over a 3-element buffer is accepted by
`ImportStridedArray` (its all-maximal corner `2 + 1·(-2) + 1·1 = 1` is in
bounds), yet the traversal reaches index `[0,1]` whose linear offset `3`
lies outside `[0,3)` — acceptance does not imply that every reachable
offset is in bounds. -/
theorem c4_counterexample :
    importAccepts 3 2 [2, 2] [-2, 1] = true ∧
      List.Forall₂ (fun i s => i < s) [0, 1] [2, 2] ∧
      ¬(0 ≤ linearAt 2 [0, 1] [-2, 1] ∧ linearAt 2 [0, 1] [-2, 1] < (3 : Int)) := by
  refine ⟨by decide, ?_, by decide⟩
  exact List.Forall₂.cons (by norm_num) (List.Forall₂.cons (by norm_num) List.Forall₂.nil)

/-- C4, amended: `ImportStridedArray` accepts exactly when the shape/stride
arrays have equal length, every shape entry is positive, and the single
all-indices-maximal corner offset `offset + Σ_d (shape[d]-1)·stride[d]` lies
within `[0, elements)`; this corner check guarantees that *every* offset
reachable during the traversal lies within `[0, elements)` whenever the
offset is non-negative (it always is: it arrives as a `size_t`) and all
strides are non-negative — but not in general (see the counterexample with
a negative stride). -/
theorem c4_amended (elements : Nat) (offset : Int) (shape : List Nat)
    (stride : List Int) (hacc : importAccepts elements offset shape stride = true)
    (hoff : 0 ≤ offset) (hstr : ∀ s ∈ stride, 0 ≤ s) :
    ∀ index : List Nat, List.Forall₂ (fun i s => i < s) index shape →
      0 ≤ linearAt offset index stride ∧
        linearAt offset index stride < (elements : Int) := by
  have hparts : 0 ≤ lastElementOffset offset shape stride ∧
      lastElementOffset offset shape stride < (elements : Int) := by
    simp only [importAccepts, Bool.and_eq_true, decide_eq_true_eq] at hacc
    exact ⟨hacc.1.2, hacc.2⟩
  intro index hf
  have hnn : (0 : Int) ≤
      (index.zip stride).foldl (fun acc p => acc + (p.1 : Int) * p.2) 0 := by
    refine foldl_add_nonneg _ _ ?_
    intro p hp
    have hmem := List.of_mem_zip hp
    exact mul_nonneg (Int.natCast_nonneg p.1) (hstr p.2 hmem.2)
  have hle := linear_le_corner shape index hf stride hstr
  unfold linearAt
  unfold lastElementOffset at hparts
  constructor
  · linarith
  · linarith [hparts.2]

/-- Witness for the amended C4 at `elements = 4`, `offset = 0`,
`shape = [2]`, `stride = [2]`, `index = [1]`. -/
theorem c4_amended_witness :
    0 ≤ linearAt 0 [1] [2] ∧ linearAt 0 [1] [2] < (4 : Int) :=
  c4_amended 4 0 [2] [2] (by decide) (by decide) (by decide) [1]
    (List.Forall₂.cons (by norm_num) List.Forall₂.nil)

/-- The inductive invariant of the instance pool: the idle list always
consists of the compiled instances in front of the uncompiled ones (the
front is both where acquisitions pop and where releases push, and every
released instance is compiled); the number of compiled instances
(`a` idle + all `currentActive` outstanding ones) equals `maxActive`; the
total instance count is conserved; `currentActive` respects the ceiling;
and `maxActive` equals the high-water mark of `currentActive` with a floor
of 1. -/
theorem pool_reach_invariant {total maxPar : Nat} {st : PoolState} {hw : Nat}
    (h : PoolReach total maxPar st hw) (htot : 1 ≤ total) :
    ∃ a b, st.instancesIdle = List.replicate a true ++ List.replicate b false ∧
      a + st.currentActive = st.maxActive ∧
      a + b + st.currentActive = total ∧
      st.currentActive ≤ maxPar ∧
      st.maxActive = max 1 hw := by
  induction h with
  | init =>
    refine ⟨1, total - 1, ?_, ?_, ?_, ?_, ?_⟩
    · simp [initPool, List.replicate]
    · simp [initPool]
    · simp [initPool]; omega
    · simp [initPool]
    · simp [initPool]
  | @acquire st hw inst st' hr heq ih =>
    obtain ⟨a, b, hidle, h1, h2, h3, h4⟩ := ih
    cases a with
    | zero =>
      cases b with
      | zero =>
        unfold getIdleInstance at heq
        simp [List.replicate] at hidle
        rw [hidle] at heq
        simp at heq
      | succ B =>
        have hidle' : st.instancesIdle = false :: List.replicate B false := by
          simpa [List.replicate] using hidle
        unfold getIdleInstance at heq
        rw [hidle'] at heq
        by_cases hg : st.currentActive ≥ maxPar
        · simp [hg] at heq
        · simp [hg] at heq
          obtain ⟨hinst, hst'⟩ := heq
          refine ⟨0, B, ?_, ?_, ?_, ?_, ?_⟩ <;> rw [← hst'] <;> simp <;> omega
    | succ A =>
      have hidle' : st.instancesIdle =
          true :: (List.replicate A true ++ List.replicate b false) := by
        simpa [List.replicate_succ] using hidle
      unfold getIdleInstance at heq
      rw [hidle'] at heq
      by_cases hg : st.currentActive ≥ maxPar
      · simp [hg] at heq
      · simp [hg] at heq
        obtain ⟨hinst, hst'⟩ := heq
        refine ⟨A, b, ?_, ?_, ?_, ?_, ?_⟩ <;> rw [← hst'] <;> simp <;> omega
  | @release st hw hr hpos ih =>
    obtain ⟨a, b, hidle, h1, h2, h3, h4⟩ := ih
    refine ⟨a + 1, b, ?_, ?_, ?_, ?_, ?_⟩
    · simp [releaseIdleInstance, hidle, List.replicate_succ]
    · simp [releaseIdleInstance]; omega
    · simp [releaseIdleInstance]; omega
    · simp [releaseIdleInstance]; omega
    · simp [releaseIdleInstance]; omega

/-- C6: with `maxParallel` held fixed, every sequence of pool operations
from the freshly constructed pool preserves
`currentActive ≤ maxParallel ≤ total` and conserves the instance count
(`currentActive ≥ 0` holds because counts are naturals); moreover, at every
reachable state a non-blocking acquisition succeeds iff an idle instance
exists and `currentActive < maxParallel`, a successful acquisition
increments `currentActive`, and a release decrements `currentActive` and
returns the instance to the idle set.  (`waitIdleInstance` performs the same
guarded transition as a successful `getIdleInstance`, so it is covered by
the same acquire step.) -/
theorem c6_pool_invariant {total maxPar : Nat} {st : PoolState} {hw : Nat}
    (h : PoolReach total maxPar st hw) (htot : 1 ≤ total) (hmp : maxPar ≤ total) :
    (st.currentActive ≤ maxPar ∧ maxPar ≤ total ∧
      st.instancesIdle.length + st.currentActive = total) ∧
      ((getIdleInstance maxPar st).isSome ↔
        st.instancesIdle ≠ [] ∧ st.currentActive < maxPar) ∧
      (∀ inst st', getIdleInstance maxPar st = some (inst, st') →
        st'.currentActive = st.currentActive + 1) ∧
      ((releaseIdleInstance true st).currentActive = st.currentActive - 1 ∧
        (releaseIdleInstance true st).instancesIdle = true :: st.instancesIdle) := by
  obtain ⟨a, b, hidle, h1, h2, h3, h4⟩ := pool_reach_invariant h htot
  refine ⟨⟨h3, hmp, ?_⟩, ?_, ?_, ?_, ?_⟩
  · rw [hidle]; simp; omega
  · unfold getIdleInstance
    cases hi : st.instancesIdle with
    | nil => simp
    | cons r rest =>
      by_cases hg : st.currentActive ≥ maxPar
      · simp [hg]
      · simp [hg]
        omega
  · intro inst st' heq
    unfold getIdleInstance at heq
    cases hi : st.instancesIdle with
    | nil => rw [hi] at heq; simp at heq
    | cons r rest =>
      rw [hi] at heq
      by_cases hg : st.currentActive ≥ maxPar
      · simp [hg] at heq
      · simp [hg] at heq
        rw [← heq.2]
  · rfl
  · rfl

/-- Witness for C6: the freshly constructed pool with 2 instances and
ceiling 2. -/
theorem c6_pool_invariant_witness :
    (((initPool 2).currentActive ≤ 2 ∧ 2 ≤ 2 ∧
      (initPool 2).instancesIdle.length + (initPool 2).currentActive = 2) ∧
      ((getIdleInstance 2 (initPool 2)).isSome ↔
        (initPool 2).instancesIdle ≠ [] ∧ (initPool 2).currentActive < 2) ∧
      (∀ inst st', getIdleInstance 2 (initPool 2) = some (inst, st') →
        st'.currentActive = (initPool 2).currentActive + 1) ∧
      ((releaseIdleInstance true (initPool 2)).currentActive =
          (initPool 2).currentActive - 1 ∧
        (releaseIdleInstance true (initPool 2)).instancesIdle =
          true :: (initPool 2).instancesIdle)) :=
  @c6_pool_invariant 2 2 (initPool 2) 0 PoolReach.init (by decide) (by decide)

/-- C8: after any sequence of acquisitions and releases the read-only
high-water mark `maxActive` equals the maximum value `currentActive` has
ever reached along the trace, with a floor of 1 for a freshly constructed
expression (instance 0 is compiled at construction and counted before any
acquisition).  `maxActive` is only ever incremented inside
`compileInstance`, which runs exactly when an acquisition pops an uncompiled
instance — and that happens exactly when `currentActive` is about to exceed
its previous maximum, because the idle list keeps compiled instances in
front. -/
theorem c8_maxActive_high_water {total maxPar : Nat} {st : PoolState} {hw : Nat}
    (h : PoolReach total maxPar st hw) (htot : 1 ≤ total) :
    st.maxActive = max 1 hw := by
  obtain ⟨a, b, hidle, h1, h2, h3, h4⟩ := pool_reach_invariant h htot
  exact h4

/-- Witness for C8: one successful acquisition on a 2-instance pool reaches
`currentActive = 1`, and `maxActive = 1 = max 1 (max 0 1)`. -/
theorem c8_maxActive_high_water_witness :
    (PoolState.mk [false] 1 1).maxActive =
      max 1 (max 0 (PoolState.mk [false] 1 1).currentActive) :=
  @c8_maxActive_high_water 2 2 (PoolState.mk [false] 1 1)
    (max 0 (PoolState.mk [false] 1 1).currentActive)
    (PoolReach.acquire PoolReach.init
      (by decide :
        getIdleInstance 2 (initPool 2) = some (true, PoolState.mk [false] 1 1)))
    (by decide)

/-- Pulling the accumulator out of the product fold of `StridedLength`. -/
theorem foldl_mul_shift (l : List Nat) :
    ∀ c : Nat, l.foldl (fun x s => x * s) c = c * stridedLength l := by
  induction l with
  | nil => intro c; simp [stridedLength]
  | cons a rest ih =>
    intro c
    show rest.foldl _ (c * a) = c * stridedLength (a :: rest)
    have hr : stridedLength (a :: rest) = rest.foldl (fun x s => x * s) (1 * a) := rfl
    rw [ih (c * a), hr, ih (1 * a)]
    ring

/-- `StridedLength` of a cons. -/
theorem stridedLength_cons (a : Nat) (l : List Nat) :
    stridedLength (a :: l) = a * stridedLength l := by
  show l.foldl (fun x s => x * s) (1 * a) = a * stridedLength l
  rw [foldl_mul_shift l (1 * a)]
  ring

/-- A strided view with positive shape entries has a positive element
count. -/
theorem stridedLength_pos (l : List Nat) (h : ∀ s ∈ l, 1 ≤ s) :
    1 ≤ stridedLength l := by
  induction l with
  | nil => simp [stridedLength]
  | cons a rest ih =>
    rw [stridedLength_cons]
    have h1 := h a (by simp)
    have h2 := ih (fun s hs => h s (by simp [hs]))
    exact Nat.one_le_iff_ne_zero.mpr (by positivity)

/-- `StridedLength` is multiplicative over append. -/
theorem stridedLength_append (l1 l2 : List Nat) :
    stridedLength (l1 ++ l2) = stridedLength l1 * stridedLength l2 := by
  induction l1 with
  | nil => simp [stridedLength]
  | cons a rest ih =>
    rw [List.cons_append, stridedLength_cons, stridedLength_cons, ih]
    ring

/-- Splitting an element count at axis `d`. -/
theorem stridedLength_split (l : List Nat) (d : Nat) (hd : d < l.length) :
    stridedLength l =
      stridedLength (l.take d) * (l.getD d 0 * stridedLength (l.drop (d + 1))) := by
  conv_lhs => rw [← List.take_append_drop d l]
  rw [stridedLength_append, List.drop_eq_getElem_cons (by omega : d < l.length),
    stridedLength_cons, List.getD_eq_getElem l 0 hd]

/-- The derived row-major stride list has one stride per axis. -/
theorem rowMajorStride_length (shape : List Nat) :
    (rowMajorStride shape).length = shape.length := by
  induction shape with
  | nil => rfl
  | cons a rest ih => simp [rowMajorStride, ih]

/-- The row-major stride of axis `d` is the element count of the axes after
it. -/
theorem rowMajorStride_getD (shape : List Nat) :
    ∀ d, d < shape.length →
      (rowMajorStride shape).getD d 0 = (stridedLength (shape.drop (d + 1)) : Int) := by
  induction shape with
  | nil => intro d hd; simp at hd
  | cons a rest ih =>
    intro d hd
    cases d with
    | zero => simp [rowMajorStride]
    | succ d =>
      show (rowMajorStride rest).getD d 0 = _
      rw [ih d (by simpa using hd)]
      rfl

/-- Row-major strides are non-increasing along the axes, so the
decreasing-stride `std::sort` of `GetStridedIndex` leaves the axis order
`0..dims-1` unchanged. -/
theorem sortOrder_rowMajor (shape : List Nat) (h : ∀ s ∈ shape, 1 ≤ s) :
    sortOrder (rowMajorStride shape) shape.length = List.range shape.length := by
  unfold sortOrder
  apply List.mergeSort_of_sorted
  have hstep : ∀ e, stridedLength (shape.drop (e + 1)) ≤ stridedLength (shape.drop e) := by
    intro e
    by_cases he : e < shape.length
    · rw [List.drop_eq_getElem_cons he, stridedLength_cons]
      refine Nat.le_mul_of_pos_left _ ?_
      exact h _ (List.getElem_mem he)
    · rw [List.drop_eq_nil_of_le (by omega), List.drop_eq_nil_of_le (by omega)]
  have hanti : ∀ d e, d ≤ e → stridedLength (shape.drop e) ≤ stridedLength (shape.drop d) := by
    intro d e hde
    induction e, hde using Nat.le_induction with
    | base => exact le_refl _
    | succ e hde ihe => exact le_trans (hstep e) ihe
  refine List.Pairwise.imp_of_mem ?_ (List.pairwise_lt_range shape.length)
  intro a b ha hb hab
  have ha' : a < shape.length := List.mem_range.mp ha
  have hb' : b < shape.length := List.mem_range.mp hb
  have hle : (rowMajorStride shape).getD b 0 ≤ (rowMajorStride shape).getD a 0 := by
    rw [rowMajorStride_getD shape b hb', rowMajorStride_getD shape a ha']
    exact_mod_cast hanti (a + 1) (b + 1) (by omega)
  exact decide_eq_true hle

/-- Processing only axes `≥ 1` never touches the head slots: the per-axis
loop over shifted axis numbers descends to the tails. -/
theorem gsiGo_shift (a0 : Nat) (s0 : Int) (shape : List Nat) (stride : List Int)
    (ord : List Nat) :
    ∀ (lin x : Int) (idx : List Int),
      gsiGo (a0 :: shape) (s0 :: stride) (ord.map Nat.succ) lin (x :: idx) =
        x :: gsiGo shape stride ord lin idx := by
  induction ord with
  | nil => intro lin x idx; rfl
  | cons i rest ih =>
    intro lin x idx
    show gsiGo (a0 :: shape) (s0 :: stride) (Nat.succ i :: rest.map Nat.succ) lin
        (x :: idx) = _
    simp only [gsiGo, Nat.succ_eq_add_one, List.getD_cons_succ, List.set_cons_succ]
    rw [ih]

/-- On row-major strides the axis loop of `GetStridedIndex`, visiting axes
`0..dims-1`, computes exactly the canonical row-major decomposition. -/
theorem gsiGo_rowMajor (shape : List Nat) :
    ∀ off : Nat, (∀ s ∈ shape, 1 ≤ s) → off < stridedLength shape →
      gsiGo shape (rowMajorStride shape) (List.range shape.length) (off : Int)
        (List.replicate shape.length 0) = natIndex off shape := by
  induction shape with
  | nil => intro off _ _; rfl
  | cons a rest ih =>
    intro off h hoff
    have hpos : 0 < stridedLength rest :=
      stridedLength_pos rest (fun s hs => h s (by simp [hs]))
    simp only [List.length_cons]
    rw [List.range_succ_eq_map]
    show gsiGo (a :: rest) ((stridedLength rest : Int) :: rowMajorStride rest)
        (0 :: (List.range rest.length).map Nat.succ) (off : Int)
        (List.replicate (rest.length + 1) 0) = _
    rw [List.replicate_succ]
    simp only [gsiGo, List.getD_cons_zero, List.set_cons_zero]
    have hneg : ¬((stridedLength rest : Int) < 0) :=
      not_lt.mpr (Int.natCast_nonneg _)
    rw [if_neg hneg]
    have hk : (off : Int).tdiv (stridedLength rest : Int) =
        ((off / stridedLength rest : Nat) : Int) := (Int.ofNat_tdiv _ _).symm
    rw [hk]
    have hdm := Nat.div_add_mod off (stridedLength rest)
    have hlin : (off : Int) - ((off / stridedLength rest : Nat) : Int) *
        (stridedLength rest : Int) = ((off % stridedLength rest : Nat) : Int) := by
      push_cast
      push_cast at hdm
      nlinarith [hdm]
    rw [hlin, gsiGo_shift]
    rw [ih (off % stridedLength rest) (fun s hs => h s (by simp [hs]))
      (Nat.mod_lt _ hpos)]
    rfl

/-- Dropping a multiple of `sh * S` from the dividend does not change the
value of `· / S % sh`. -/
theorem mod_div_mod_eq (off S sh K : Nat) :
    off % (K * (sh * S)) / S % sh = off / S % sh := by
  have h1 : K * (sh * S) = S * (K * sh) := by ring
  rw [h1, Nat.mod_mul_right_div_self]
  exact Nat.mod_mod_of_dvd _ (dvd_mul_left sh K)

/-- Entries of the canonical decomposition: the claim's formula
`index[d] = (offset / stride[d]) mod shape[d]` with
`stride[d] = Π_{e>d} shape[e]`. -/
theorem natIndex_getD (shape : List Nat) :
    ∀ off d : Nat, (∀ s ∈ shape, 1 ≤ s) → off < stridedLength shape →
      d < shape.length →
      (natIndex off shape).getD d 0 =
        ((off / stridedLength (shape.drop (d + 1))) % shape.getD d 0 : Nat) := by
  induction shape with
  | nil => intro off d _ _ hd; simp at hd
  | cons a rest ih =>
    intro off d h hoff hd
    have hpos : 0 < stridedLength rest :=
      stridedLength_pos rest (fun s hs => h s (by simp [hs]))
    cases d with
    | zero =>
      show ((off / stridedLength rest : Nat) : Int) = _
      have hlt : off / stridedLength rest < a := by
        refine (Nat.div_lt_iff_lt_mul hpos).mpr ?_
        rw [stridedLength_cons] at hoff
        omega
      rw [show (a :: rest).drop 1 = rest from rfl,
        show (a :: rest).getD 0 0 = a from rfl, Nat.mod_eq_of_lt hlt]
    | succ d =>
      show (natIndex (off % stridedLength rest) rest).getD d 0 = _
      rw [ih (off % stridedLength rest) d (fun s hs => h s (by simp [hs]))
        (Nat.mod_lt _ hpos) (by simpa using hd)]
      rw [show (a :: rest).drop (d + 2) = rest.drop (d + 1) from rfl,
        show (a :: rest).getD (d + 1) 0 = rest.getD d 0 from rfl]
      have hd' : d < rest.length := by simpa using hd
      have hsplit := stridedLength_split rest d hd'
      rw [show stridedLength rest =
          stridedLength (rest.take d) *
            (rest.getD d 0 * stridedLength (rest.drop (d + 1))) from hsplit]
      exact congrArg _ (mod_div_mod_eq off (stridedLength (rest.drop (d + 1)))
        (rest.getD d 0) (stridedLength (rest.take d)))

/-- Unfolding `GetLinearOffset` on a cons. -/
theorem getLinearOffset_cons (x s : Int) (idx str : List Int) :
    getLinearOffset (x :: idx) (s :: str) = x * s + getLinearOffset idx str := by
  show (idx.zip str).foldl _ (0 + x * s) = _
  rw [foldl_add_shift (fun p => p.1 * p.2) (idx.zip str) (0 + x * s)]
  show 0 + x * s + _ = x * s + (idx.zip str).foldl _ 0
  ring

/-- `GetLinearOffset` inverts the canonical decomposition. -/
theorem getLinearOffset_natIndex (shape : List Nat) :
    ∀ off : Nat, (∀ s ∈ shape, 1 ≤ s) → off < stridedLength shape →
      getLinearOffset (natIndex off shape) (rowMajorStride shape) = (off : Int) := by
  induction shape with
  | nil =>
    intro off _ hoff
    have : off = 0 := by
      have h1 : stridedLength ([] : List Nat) = 1 := rfl
      omega
    subst this
    rfl
  | cons a rest ih =>
    intro off h hoff
    have hpos : 0 < stridedLength rest :=
      stridedLength_pos rest (fun s hs => h s (by simp [hs]))
    show getLinearOffset
        (((off / stridedLength rest : Nat) : Int) ::
          natIndex (off % stridedLength rest) rest)
        ((stridedLength rest : Int) :: rowMajorStride rest) = (off : Int)
    rw [getLinearOffset_cons,
      ih (off % stridedLength rest) (fun s hs => h s (by simp [hs]))
        (Nat.mod_lt _ hpos)]
    have hdm := Nat.div_add_mod off (stridedLength rest)
    push_cast
    push_cast at hdm
    nlinarith [hdm]

/-- C5: for every shape with `dims ≥ 1` axes, all entries positive, the
positive row-major strides derived from it (`stride[d] = Π_{e>d} shape[e]`,
as the `cwise` prologue computes them), and every linear offset below the
element count, `GetStridedIndex` — which visits axes in decreasing-stride
order and applies the negative-stride adjustment, a no-op here since all
strides are positive — yields exactly the row-major decomposition
`index[d] = (offset / stride[d]) mod shape[d]`, and `GetLinearOffset`
applied to that index with the same strides returns the original offset. -/
theorem c5_strided_roundtrip (shape : List Nat) (off : Nat)
    (_hdims : 1 ≤ shape.length) (hsh : ∀ s ∈ shape, 1 ≤ s)
    (hoff : off < stridedLength shape) :
    (∀ d, d < shape.length →
      (rowMajorStride shape).getD d 0 =
        (stridedLength (shape.drop (d + 1)) : Int)) ∧
      (∀ d, d < shape.length →
        (getStridedIndex (off : Int) shape.length shape
            (rowMajorStride shape)).getD d 0 =
          ((off / stridedLength (shape.drop (d + 1))) % shape.getD d 0 : Nat)) ∧
      getLinearOffset
        (getStridedIndex (off : Int) shape.length shape (rowMajorStride shape))
        (rowMajorStride shape) = (off : Int) := by
  have hgsi : getStridedIndex (off : Int) shape.length shape (rowMajorStride shape) =
      natIndex off shape := by
    unfold getStridedIndex
    rw [sortOrder_rowMajor shape hsh]
    exact gsiGo_rowMajor shape off hsh hoff
  refine ⟨fun d hd => rowMajorStride_getD shape d hd, ?_, ?_⟩
  · intro d hd
    rw [hgsi]
    exact natIndex_getD shape off d hsh hoff hd
  · rw [hgsi]
    exact getLinearOffset_natIndex shape off hsh hoff

/-- Witness for C5 at `shape = [2,3]`, `offset = 4` (strides `[3,1]`, index
`[1,1]`). -/
theorem c5_strided_roundtrip_witness :
    (∀ d, d < ([2, 3] : List Nat).length →
      (rowMajorStride [2, 3]).getD d 0 =
        (stridedLength (([2, 3] : List Nat).drop (d + 1)) : Int)) ∧
      (∀ d, d < ([2, 3] : List Nat).length →
        (getStridedIndex ((4 : Nat) : Int) ([2, 3] : List Nat).length [2, 3]
            (rowMajorStride [2, 3])).getD d 0 =
          ((4 / stridedLength (([2, 3] : List Nat).drop (d + 1))) %
              ([2, 3] : List Nat).getD d 0 : Nat)) ∧
      getLinearOffset
        (getStridedIndex ((4 : Nat) : Int) ([2, 3] : List Nat).length [2, 3]
          (rowMajorStride [2, 3]))
        (rowMajorStride [2, 3]) = ((4 : Nat) : Int) :=
  c5_strided_roundtrip [2, 3] 4 (by decide) (by decide) (by decide)

end ExprtkJs
